import Mathlib

/-!
A verification model of the near-Earth-object database: the record types
(`models.py`), the linking constructor, lookup accessors and query filter
engine (`database.py`), and the JSON writer (`write.py`).

Mutable Python objects are modelled by a heap: a `NearEarthObject` is
identified by its index in the object list, a `CloseApproach` by its index in
the approach list.  Python floats are modelled by rationals; the
`float('nan')` sentinel used for an unknown diameter is modelled by `none`.
-/

/-- A Python `datetime`; only its date component takes part in the embedded
operations (the query filters compare `time.date()`), so the date is an
integer day number and the time of day is kept as an opaque second integer. -/
structure PyDateTime where
  date : Int
  minuteOfDay : Int
  deriving DecidableEq, Repr

/-- A near-Earth object (`models.NearEarthObject`).  `diameter = none` models
the `float('nan')` sentinel for an unknown diameter.  `approaches` holds the
heap indices of the close approaches linked to this object (a reference to a
`CloseApproach` is its position in the approach collection). -/
structure NearEarthObject where
  designation : String
  name : Option String
  diameter : Option ℚ
  hazardous : Bool
  approaches : List Nat
  deriving DecidableEq, Repr

/-- A close approach (`models.CloseApproach`).  `neo` is the heap index of the
referenced object; `_designation` is the designation string the constructor
copied out of that object. -/
structure CloseApproach where
  neo : Nat
  _designation : String
  time : PyDateTime
  distance : ℚ
  velocity : ℚ
  deriving DecidableEq, Repr

/-- Python truthiness of an optional string field (`if neo.name:`): `None`
and the empty string are falsy. -/
def truthyName : Option String → Bool
  | none => false
  | some s => decide (s ≠ "")

/-- The body of `NearEarthObject.__init__`: an empty name is normalised to
`None`, an empty diameter field to the not-a-number sentinel, and the
hazardous flag is the character code comparison `hazardous == 'Y'`.  The
`approaches` collection starts empty.  (The excess-keyword passthrough of the
source, which reassigns `name` from stray keyword arguments, is not taken;
the model corresponds to a call with no excess keywords.) -/
def NearEarthObject.init (designation : String) (name : Option String)
    (diameter : Option ℚ) (hazardous : String) : NearEarthObject :=
  { designation := designation
    name := match name with
      | none => none
      | some s => if s = "" then none else some s
    diameter := diameter
    hazardous := hazardous == "Y"
    approaches := [] }

/-- The body of `CloseApproach.__init__` run against the heap `neos`: the
constructor stores the object reference and copies its designation string
into `_designation`.  A dangling reference makes the Python constructor raise
(`neo.designation` on `None`), modelled by `none`. -/
def CloseApproach.init (neos : List NearEarthObject) (neo : Nat)
    (time : PyDateTime) (distance velocity : ℚ) : Option CloseApproach :=
  match neos.get? neo with
  | none => none
  | some n =>
    some { neo := neo, _designation := n.designation, time := time,
           distance := distance, velocity := velocity }

/-- Python `dict.get` over a dictionary represented by its insertion
sequence: the binding inserted last wins, a missing key yields `none`. -/
def dictGet (d : List (String × Nat)) (k : String) : Option Nat :=
  match d with
  | [] => none
  | (k', v) :: rest =>
    match dictGet rest k with
    | some v' => some v'
    | none => if k' = k then some v else none

/-- The designation index built by the first loop of `NEODatabase.__init__`
(`self.neo_with_designation[neo.designation] = neo`): one binding per object,
keyed by its designation and valued by its heap index; `i` is the index of
the first listed object. -/
def desigIndexFrom (i : Nat) : List NearEarthObject → List (String × Nat)
  | [] => []
  | n :: rest => (n.designation, i) :: desigIndexFrom (i + 1) rest

/-- The name index built by the same loop (`if neo.name:
self.neo_with_name[neo.name] = neo`): only objects with a truthy name are
indexed. -/
def nameIndexFrom (i : Nat) : List NearEarthObject → List (String × Nat)
  | [] => []
  | n :: rest =>
    if truthyName n.name then
      (n.name.getD "", i) :: nameIndexFrom (i + 1) rest
    else
      nameIndexFrom (i + 1) rest

/-- Replace the element at index `i` by `f` of it; out-of-range indices leave
the list unchanged (they never arise in the modelled runs). -/
def listModify (l : List α) (i : Nat) (f : α → α) : List α :=
  match l.get? i with
  | none => l
  | some a => l.set i (f a)

/-- The second loop of `NEODatabase.__init__`: for each approach, resolve its
designation through the designation index and append the approach (that is,
its heap index `j`, the position of the approach in the input collection) to
the resolved object's `approaches` list.  A designation absent from the index
raises `KeyError`, which propagates. -/
def attachApproachesFrom (dIdx : List (String × Nat)) (j : Nat) :
    List NearEarthObject → List CloseApproach →
    Except String (List NearEarthObject)
  | neos, [] => Except.ok neos
  | neos, ca :: rest =>
    match dictGet dIdx ca._designation with
    | none => Except.error "KeyError"
    | some i =>
      attachApproachesFrom dIdx (j + 1)
        (listModify neos i (fun n => { n with approaches := n.approaches ++ [j] }))
        rest

/-- The database (`database.NEODatabase`): the object heap, the approach
collection, and the two lookup dictionaries (each valued by object heap
indices, the model of object references). -/
structure NEODatabase where
  _neos : List NearEarthObject
  _approaches : List CloseApproach
  neo_with_designation : List (String × Nat)
  neo_with_name : List (String × Nat)
  deriving DecidableEq, Repr

/-- `NEODatabase.__init__`: build both indexes in one pass over the objects,
then link every approach; a link failure (`KeyError`) aborts construction. -/
def NEODatabase.init (neos : List NearEarthObject)
    (approaches : List CloseApproach) : Except String NEODatabase :=
  match attachApproachesFrom (desigIndexFrom 0 neos) 0 neos approaches with
  | Except.error e => Except.error e
  | Except.ok neos' =>
    Except.ok { _neos := neos', _approaches := approaches,
                neo_with_designation := desigIndexFrom 0 neos,
                neo_with_name := nameIndexFrom 0 neos }

/-- `NEODatabase.get_neo_by_designation`: exact-match dictionary lookup,
returning the object reference (heap index) or `None`. -/
def NEODatabase.get_neo_by_designation (db : NEODatabase)
    (designation : String) : Option Nat :=
  dictGet db.neo_with_designation designation

/-- `NEODatabase.get_neo_by_name`: exact-match dictionary lookup, returning
the object reference (heap index) or `None`. -/
def NEODatabase.get_neo_by_name (db : NEODatabase) (name : String) :
    Option Nat :=
  dictGet db.neo_with_name name

/-- A filter request: the fixed-shape bundle of the ten optional criteria
(the dict handed to `NEODatabase.query`, with all ten keys present). -/
structure Filters where
  date : Option Int
  start_date : Option Int
  end_date : Option Int
  distance_min : Option ℚ
  distance_max : Option ℚ
  velocity_min : Option ℚ
  velocity_max : Option ℚ
  diameter_min : Option ℚ
  diameter_max : Option ℚ
  hazardous : Option Bool
  deriving DecidableEq, Repr

/-- The request with every criterion unset. -/
def Filters.unset : Filters :=
  { date := none, start_date := none, end_date := none,
    distance_min := none, distance_max := none,
    velocity_min := none, velocity_max := none,
    diameter_min := none, diameter_max := none, hazardous := none }

/-- The `none_count` computed at the top of `NEODatabase.query`: how many of
the ten criterion values are `None`. -/
def noneCount (f : Filters) : Nat :=
  (if f.date.isNone then 1 else 0) +
  (if f.start_date.isNone then 1 else 0) +
  (if f.end_date.isNone then 1 else 0) +
  (if f.distance_min.isNone then 1 else 0) +
  (if f.distance_max.isNone then 1 else 0) +
  (if f.velocity_min.isNone then 1 else 0) +
  (if f.velocity_max.isNone then 1 else 0) +
  (if f.diameter_min.isNone then 1 else 0) +
  (if f.diameter_max.isNone then 1 else 0) +
  (if f.hazardous.isNone then 1 else 0)

/-- Python truthiness of an optional numeric criterion (`if min_dist:`):
`None` and `0.0` are falsy, every other number is truthy. -/
def truthyBound : Option ℚ → Bool
  | none => false
  | some q => decide (q ≠ 0)

/-!
The body of the per-approach loop of `NEODatabase.query` is a chain of six
conditional blocks threading the mutable flag `apply_filters`.  Each block is
modelled as `Bool → Option Bool`: the argument is the incoming flag, `none`
models the `continue` statement (the approach is rejected), and `some a`
hands the updated flag to the next block.
-/

/-- The `filters['date']` block: a set exact date must equal the approach's
date component (a `date` object is always truthy in Python). -/
def dateBlock (f : Filters) (ca : CloseApproach) (a : Bool) : Option Bool :=
  match f.date with
  | none => some a
  | some d => if d = ca.time.date then some true else none

/-- The `start_date`/`end_date` block: `if filters['start_date'] and
filters['end_date']` with the two `elif` arms. -/
def rangeBlock (f : Filters) (ca : CloseApproach) (a : Bool) : Option Bool :=
  match f.start_date, f.end_date with
  | some s, some e =>
    if s ≤ ca.time.date ∧ ca.time.date ≤ e then some true else none
  | some s, none => if s ≤ ca.time.date then some true else none
  | none, some e => if ca.time.date ≤ e then some true else none
  | none, none => some a

/-- The distance block: `if min_dist and max_dist` with the two `elif` arms —
Python truthiness, so a bound equal to `0.0` does not activate its arm. -/
def distBlock (f : Filters) (ca : CloseApproach) (a : Bool) : Option Bool :=
  if truthyBound f.distance_min && truthyBound f.distance_max then
    if f.distance_min.getD 0 ≤ ca.distance ∧ ca.distance ≤ f.distance_max.getD 0
    then some true else none
  else if truthyBound f.distance_min then
    if f.distance_min.getD 0 ≤ ca.distance then some true else none
  else if truthyBound f.distance_max then
    if ca.distance ≤ f.distance_max.getD 0 then some true else none
  else some a

/-- The velocity block, identical in shape to the distance block. -/
def velBlock (f : Filters) (ca : CloseApproach) (a : Bool) : Option Bool :=
  if truthyBound f.velocity_min && truthyBound f.velocity_max then
    if f.velocity_min.getD 0 ≤ ca.velocity ∧ ca.velocity ≤ f.velocity_max.getD 0
    then some true else none
  else if truthyBound f.velocity_min then
    if f.velocity_min.getD 0 ≤ ca.velocity then some true else none
  else if truthyBound f.velocity_max then
    if ca.velocity ≤ f.velocity_max.getD 0 then some true else none
  else some a

/-- The diameter block: in each active arm `math.isnan(...)` first issues a
bare `continue` (modelled by the `none` result on an unknown diameter),
then the bound comparison runs on the known diameter. -/
def diaBlock (f : Filters) (n : NearEarthObject) (a : Bool) : Option Bool :=
  if truthyBound f.diameter_min && truthyBound f.diameter_max then
    match n.diameter with
    | none => none
    | some d =>
      if f.diameter_min.getD 0 ≤ d ∧ d ≤ f.diameter_max.getD 0
      then some true else none
  else if truthyBound f.diameter_min then
    match n.diameter with
    | none => none
    | some d => if f.diameter_min.getD 0 ≤ d then some true else none
  else if truthyBound f.diameter_max then
    match n.diameter with
    | none => none
    | some d => if d ≤ f.diameter_max.getD 0 then some true else none
  else some a

/-- The hazardous block: `if filters['hazardous'] is not None` — an explicit
`None` test, so `False` is a set value here. -/
def hazBlock (f : Filters) (n : NearEarthObject) (a : Bool) : Option Bool :=
  match f.hazardous with
  | none => some a
  | some h => if h = n.hazardous then some true else none

/-- One iteration of the filtering loop of `NEODatabase.query`: the approach
is yielded exactly when no block issued `continue` and the flag
`apply_filters` (initially `False`) ends up `True`. -/
def queryMatch (f : Filters) (n : NearEarthObject) (ca : CloseApproach) :
    Bool :=
  ((((((dateBlock f ca false).bind (rangeBlock f ca)).bind
      (distBlock f ca)).bind (velBlock f ca)).bind
      (diaBlock f n)).bind (hazBlock f n)).getD false

/-- `NEODatabase.query`: when some criterion value is not `None`, run the
filtering loop over the stored approaches (resolving each approach's object
reference through the heap); otherwise yield every stored approach.  The
`none` arm of the heap lookup is unreachable for a database whose approaches
reference stored objects (in Python that lookup cannot fail; a dangling
reference would raise before any comparison). -/
def queryPred (neos : List NearEarthObject) (f : Filters)
    (ca : CloseApproach) : Bool :=
  match neos.get? ca.neo with
  | some n => queryMatch f n ca
  | none => false

/-- `NEODatabase.query` (continued): the filtering loop keeps, in stored
order, the approaches whose iteration yields them. -/
def NEODatabase.query (db : NEODatabase) (f : Filters) :
    List CloseApproach :=
  if noneCount f ≠ 10 then
    db._approaches.filter (queryPred db._neos f)
  else
    db._approaches

/-!
The specification-side semantics of a filter request, written from the
spec's own words for comparison with the code: a sequence member satisfies
every set criterion (logical AND across all set criteria, unset criteria
vacuously satisfied), all bounds inclusive, an unknown diameter never
matching a set diameter criterion.
-/

/-- Modelled from the spec: one approach satisfies all ten optional criteria
of a filter request. -/
def specCriteria (f : Filters) (n : NearEarthObject) (ca : CloseApproach) :
    Bool :=
  f.date.all (fun d => decide (d = ca.time.date)) &&
  f.start_date.all (fun s => decide (s ≤ ca.time.date)) &&
  f.end_date.all (fun e => decide (ca.time.date ≤ e)) &&
  f.distance_min.all (fun q => decide (q ≤ ca.distance)) &&
  f.distance_max.all (fun q => decide (ca.distance ≤ q)) &&
  f.velocity_min.all (fun q => decide (q ≤ ca.velocity)) &&
  f.velocity_max.all (fun q => decide (ca.velocity ≤ q)) &&
  f.diameter_min.all (fun q =>
    (n.diameter.map (fun d => decide (q ≤ d))).getD false) &&
  f.diameter_max.all (fun q =>
    (n.diameter.map (fun d => decide (d ≤ q))).getD false) &&
  f.hazardous.all (fun h => decide (h = n.hazardous))

/-- Modelled from the spec: `specCriteria` with the approach's object
reference resolved through the heap (an approach referencing no stored
object satisfies nothing). -/
def specMatches (f : Filters) (neos : List NearEarthObject)
    (ca : CloseApproach) : Bool :=
  match neos.get? ca.neo with
  | some n => specCriteria f n ca
  | none => false

/-- `NEODatabase.query` with the heap threaded through every loop iteration:
each iteration reads the current heap to resolve the approach's object and
never writes, so the database component is handed on unchanged, exactly as in
the source, where the generator body contains no assignment to any object,
approach, or index. -/
def querySStep (f : Filters) (st : NEODatabase × List CloseApproach)
    (ca : CloseApproach) : NEODatabase × List CloseApproach :=
  match st.1._neos.get? ca.neo with
  | some n => if queryMatch f n ca then (st.1, st.2 ++ [ca]) else (st.1, st.2)
  | none => (st.1, st.2)

/-- `NEODatabase.query` with the state threaded (continued): the loop is the
fold of the per-iteration step over the stored approaches. -/
def NEODatabase.queryS (db : NEODatabase) (f : Filters) :
    NEODatabase × List CloseApproach :=
  if noneCount f ≠ 10 then
    db._approaches.foldl (querySStep f) (db, [])
  else
    (db, db._approaches)

/-- The nested object record of one entry written by `write_to_json`. -/
structure NeoJson where
  designation : String
  name : String
  diameter_km : Option ℚ
  potentially_hazardous : Bool
  deriving DecidableEq, Repr

/-- One entry written by `write_to_json` (`datetime_to_str` string rendering
is kept as the timestamp value itself). -/
structure CAJson where
  datetime_utc : PyDateTime
  distance_au : ℚ
  velocity_km_s : ℚ
  neo : NeoJson
  deriving DecidableEq, Repr

/-- The record written for one result: the approach's own fields plus the
nested object fields, read from the (possibly just updated) object `n`. -/
def entryOf (ca : CloseApproach) (n : NearEarthObject) : CAJson :=
  { datetime_utc := ca.time, distance_au := ca.distance,
    velocity_km_s := ca.velocity,
    neo := { designation := ca._designation,
             name := n.name.getD "",
             diameter_km := n.diameter,
             potentially_hazardous := n.hazardous } }

/-- One iteration of the `write_to_json` loop over the heap `st.1`: when the
approach's object has a falsy name (`None` or empty), the loop assigns
`result.neo.name = ''` — a write to the shared object — and the entry is then
built from the updated object.  A dangling object reference would raise in
Python before anything else; that arm leaves the state unchanged and emits
nothing, and is unreachable for results drawn from a well-linked database. -/
def writeJsonStep (st : List NearEarthObject × List CAJson)
    (ca : CloseApproach) : List NearEarthObject × List CAJson :=
  match st.1.get? ca.neo with
  | none => st
  | some n =>
    if truthyName n.name then
      (st.1, st.2 ++ [entryOf ca n])
    else
      (listModify st.1 ca.neo (fun m => { m with name := some "" }),
       st.2 ++ [entryOf ca { n with name := some "" }])

/-- `write_to_json`: fold the per-result step over the result stream,
threading the object heap (the file output is the accumulated entry list). -/
def write_to_json (neos : List NearEarthObject)
    (results : List CloseApproach) : List NearEarthObject × List CAJson :=
  results.foldl writeJsonStep (neos, [])


/-!
Decomposition of the filtering loop: each conditional block either rejects
the approach (`continue`) or passes the flag on, possibly setting it.  For
each block, `ok…` is the condition under which the block does not reject, and
`act…` says whether the block is active (would assign the flag) for this
request.
-/

/-- The date block is active whenever an exact date is set. -/
def actDate (f : Filters) : Bool := f.date.isSome

/-- The range block is active whenever a start or end date is set. -/
def actRange (f : Filters) : Bool := f.start_date.isSome || f.end_date.isSome

/-- The distance block is active only for a truthy (set and nonzero) bound. -/
def actDist (f : Filters) : Bool :=
  truthyBound f.distance_min || truthyBound f.distance_max

/-- The velocity block is active only for a truthy bound. -/
def actVel (f : Filters) : Bool :=
  truthyBound f.velocity_min || truthyBound f.velocity_max

/-- The diameter block is active only for a truthy bound. -/
def actDia (f : Filters) : Bool :=
  truthyBound f.diameter_min || truthyBound f.diameter_max

/-- The hazardous block is active whenever the flag criterion is set. -/
def actHaz (f : Filters) : Bool := f.hazardous.isSome

/-- Some block of the loop is active for this request. -/
def actAny (f : Filters) : Bool :=
  actDate f || actRange f || actDist f || actVel f || actDia f || actHaz f

/-- Pass condition of the date block. -/
def okDate (f : Filters) (ca : CloseApproach) : Bool :=
  f.date.all (fun d => decide (d = ca.time.date))

/-- Pass condition of the range block. -/
def okRange (f : Filters) (ca : CloseApproach) : Bool :=
  f.start_date.all (fun s => decide (s ≤ ca.time.date)) &&
  f.end_date.all (fun e => decide (ca.time.date ≤ e))

/-- Pass condition of the distance block, with the source's truthiness tests. -/
def okDist (f : Filters) (ca : CloseApproach) : Bool :=
  if truthyBound f.distance_min && truthyBound f.distance_max then
    decide (f.distance_min.getD 0 ≤ ca.distance) &&
    decide (ca.distance ≤ f.distance_max.getD 0)
  else if truthyBound f.distance_min then
    decide (f.distance_min.getD 0 ≤ ca.distance)
  else if truthyBound f.distance_max then
    decide (ca.distance ≤ f.distance_max.getD 0)
  else true

/-- Pass condition of the velocity block. -/
def okVel (f : Filters) (ca : CloseApproach) : Bool :=
  if truthyBound f.velocity_min && truthyBound f.velocity_max then
    decide (f.velocity_min.getD 0 ≤ ca.velocity) &&
    decide (ca.velocity ≤ f.velocity_max.getD 0)
  else if truthyBound f.velocity_min then
    decide (f.velocity_min.getD 0 ≤ ca.velocity)
  else if truthyBound f.velocity_max then
    decide (ca.velocity ≤ f.velocity_max.getD 0)
  else true

/-- Pass condition of the diameter block: any active arm rejects an unknown
diameter outright. -/
def okDia (f : Filters) (n : NearEarthObject) : Bool :=
  if truthyBound f.diameter_min && truthyBound f.diameter_max then
    match n.diameter with
    | none => false
    | some d =>
      decide (f.diameter_min.getD 0 ≤ d) && decide (d ≤ f.diameter_max.getD 0)
  else if truthyBound f.diameter_min then
    match n.diameter with
    | none => false
    | some d => decide (f.diameter_min.getD 0 ≤ d)
  else if truthyBound f.diameter_max then
    match n.diameter with
    | none => false
    | some d => decide (d ≤ f.diameter_max.getD 0)
  else true

/-- Pass condition of the hazardous block. -/
def okHaz (f : Filters) (n : NearEarthObject) : Bool :=
  f.hazardous.all (fun h => decide (h = n.hazardous))

/-- Pass condition of the whole loop body. -/
def okAll (f : Filters) (n : NearEarthObject) (ca : CloseApproach) : Bool :=
  okDate f ca && okRange f ca && okDist f ca && okVel f ca &&
  okDia f n && okHaz f n

/-- The date block passes iff `okDate`, and then sets the flag iff active. -/
theorem dateBlock_eq (f : Filters) (ca : CloseApproach) :
    dateBlock f ca = fun a => if okDate f ca then some (a || actDate f) else none := by
  funext a
  unfold dateBlock okDate actDate
  cases f.date with
  | none => simp
  | some d => by_cases h : d = ca.time.date <;> simp [h]

/-- The range block passes iff `okRange`, and then sets the flag iff active. -/
theorem rangeBlock_eq (f : Filters) (ca : CloseApproach) :
    rangeBlock f ca = fun a => if okRange f ca then some (a || actRange f) else none := by
  funext a
  unfold rangeBlock okRange actRange
  cases hs : f.start_date with
  | none =>
    cases he : f.end_date with
    | none => simp
    | some e => by_cases h : ca.time.date ≤ e <;> simp [h]
  | some s =>
    cases he : f.end_date with
    | none => by_cases h : s ≤ ca.time.date <;> simp [h]
    | some e =>
      by_cases h1 : s ≤ ca.time.date <;> by_cases h2 : ca.time.date ≤ e <;>
        simp [h1, h2]

/-- The distance block passes iff `okDist`, and then sets the flag iff active. -/
theorem distBlock_eq (f : Filters) (ca : CloseApproach) :
    distBlock f ca = fun a => if okDist f ca then some (a || actDist f) else none := by
  funext a
  unfold distBlock okDist actDist
  cases hm : truthyBound f.distance_min <;> cases hM : truthyBound f.distance_max
  · simp [hm, hM]
  · by_cases h : ca.distance ≤ f.distance_max.getD 0 <;> simp [hm, hM, h]
  · by_cases h : f.distance_min.getD 0 ≤ ca.distance <;> simp [hm, hM, h]
  · by_cases h1 : f.distance_min.getD 0 ≤ ca.distance <;>
      by_cases h2 : ca.distance ≤ f.distance_max.getD 0 <;> simp [hm, hM, h1, h2]

/-- The velocity block passes iff `okVel`, and then sets the flag iff active. -/
theorem velBlock_eq (f : Filters) (ca : CloseApproach) :
    velBlock f ca = fun a => if okVel f ca then some (a || actVel f) else none := by
  funext a
  unfold velBlock okVel actVel
  cases hm : truthyBound f.velocity_min <;> cases hM : truthyBound f.velocity_max
  · simp [hm, hM]
  · by_cases h : ca.velocity ≤ f.velocity_max.getD 0 <;> simp [hm, hM, h]
  · by_cases h : f.velocity_min.getD 0 ≤ ca.velocity <;> simp [hm, hM, h]
  · by_cases h1 : f.velocity_min.getD 0 ≤ ca.velocity <;>
      by_cases h2 : ca.velocity ≤ f.velocity_max.getD 0 <;> simp [hm, hM, h1, h2]

/-- The diameter block passes iff `okDia`, and then sets the flag iff active. -/
theorem diaBlock_eq (f : Filters) (n : NearEarthObject) :
    diaBlock f n = fun a => if okDia f n then some (a || actDia f) else none := by
  funext a
  unfold diaBlock okDia actDia
  cases hm : truthyBound f.diameter_min <;> cases hM : truthyBound f.diameter_max
  · simp [hm, hM]
  · cases hd : n.diameter with
    | none => simp [hm, hM, hd]
    | some d => by_cases h : d ≤ f.diameter_max.getD 0 <;> simp [hm, hM, hd, h]
  · cases hd : n.diameter with
    | none => simp [hm, hM, hd]
    | some d => by_cases h : f.diameter_min.getD 0 ≤ d <;> simp [hm, hM, hd, h]
  · cases hd : n.diameter with
    | none => simp [hm, hM, hd]
    | some d =>
      by_cases h1 : f.diameter_min.getD 0 ≤ d <;>
        by_cases h2 : d ≤ f.diameter_max.getD 0 <;> simp [hm, hM, hd, h1, h2]

/-- The hazardous block passes iff `okHaz`, and then sets the flag iff active. -/
theorem hazBlock_eq (f : Filters) (n : NearEarthObject) :
    hazBlock f n = fun a => if okHaz f n then some (a || actHaz f) else none := by
  funext a
  unfold hazBlock okHaz actHaz
  cases f.hazardous with
  | none => simp
  | some h => by_cases hh : h = n.hazardous <;> simp [hh]

/-- One loop iteration yields the approach iff every block passes and some
block is active: the shared mutable flag realises the conjunction of the
block conditions, but only when at least one block actually assigns it. -/
theorem queryMatch_eq (f : Filters) (n : NearEarthObject) (ca : CloseApproach) :
    queryMatch f n ca = (okAll f n ca && actAny f) := by
  unfold queryMatch okAll actAny
  rw [dateBlock_eq, rangeBlock_eq, distBlock_eq, velBlock_eq, diaBlock_eq,
      hazBlock_eq]
  cases h1 : okDate f ca <;> cases h2 : okRange f ca <;>
    cases h3 : okDist f ca <;> cases h4 : okVel f ca <;>
      cases h5 : okDia f n <;> cases h6 : okHaz f n <;>
        simp [Bool.or_assoc]

/-- A numeric criterion is effective when, if set, it is nonzero — so the
source's truthiness test agrees with an is-set test. -/
def effectiveBound (o : Option ℚ) : Bool := o.all (fun q => decide (q ≠ 0))

/-- A filter request is effective when every set numeric bound is nonzero. -/
def effectiveFilters (f : Filters) : Bool :=
  effectiveBound f.distance_min && effectiveBound f.distance_max &&
  effectiveBound f.velocity_min && effectiveBound f.velocity_max &&
  effectiveBound f.diameter_min && effectiveBound f.diameter_max

/-- For an effective bound, truthiness is exactly being set. -/
theorem truthyBound_of_effective {o : Option ℚ} (h : effectiveBound o = true) :
    truthyBound o = o.isSome := by
  cases o with
  | none => rfl
  | some q =>
    simp only [effectiveBound, Option.all_some, decide_eq_true_eq] at h
    simp [truthyBound, h]

/-- A non-truthy effective bound is unset. -/
theorem eq_none_of_truthyBound_false {o : Option ℚ}
    (he : effectiveBound o = true) (h : truthyBound o = false) : o = none := by
  cases o with
  | none => rfl
  | some q =>
    rw [truthyBound_of_effective he] at h
    simp at h

/-- For effective distance bounds, the distance block's pass condition is the
conjunction of the two inclusive-bound criteria. -/
theorem okDist_eq_spec (f : Filters) (ca : CloseApproach)
    (hm : effectiveBound f.distance_min = true)
    (hM : effectiveBound f.distance_max = true) :
    okDist f ca =
      (f.distance_min.all (fun q => decide (q ≤ ca.distance)) &&
       f.distance_max.all (fun q => decide (ca.distance ≤ q))) := by
  unfold okDist
  rw [truthyBound_of_effective hm, truthyBound_of_effective hM]
  cases f.distance_min <;> cases f.distance_max <;> simp

/-- For effective velocity bounds, likewise. -/
theorem okVel_eq_spec (f : Filters) (ca : CloseApproach)
    (hm : effectiveBound f.velocity_min = true)
    (hM : effectiveBound f.velocity_max = true) :
    okVel f ca =
      (f.velocity_min.all (fun q => decide (q ≤ ca.velocity)) &&
       f.velocity_max.all (fun q => decide (ca.velocity ≤ q))) := by
  unfold okVel
  rw [truthyBound_of_effective hm, truthyBound_of_effective hM]
  cases f.velocity_min <;> cases f.velocity_max <;> simp

/-- For effective diameter bounds, the diameter block's pass condition is the
conjunction of the two diameter criteria, an unknown diameter failing any set
one. -/
theorem okDia_eq_spec (f : Filters) (n : NearEarthObject)
    (hm : effectiveBound f.diameter_min = true)
    (hM : effectiveBound f.diameter_max = true) :
    okDia f n =
      (f.diameter_min.all (fun q =>
        (n.diameter.map (fun d => decide (q ≤ d))).getD false) &&
       f.diameter_max.all (fun q =>
        (n.diameter.map (fun d => decide (d ≤ q))).getD false)) := by
  unfold okDia
  rw [truthyBound_of_effective hm, truthyBound_of_effective hM]
  cases f.diameter_min <;> cases f.diameter_max <;> cases n.diameter <;> simp

/-- For an effective request, the loop's pass condition is exactly the
spec-side satisfaction of all ten criteria. -/
theorem okAll_eq_spec (f : Filters) (n : NearEarthObject) (ca : CloseApproach)
    (heff : effectiveFilters f = true) :
    okAll f n ca = specCriteria f n ca := by
  unfold effectiveFilters at heff
  simp only [Bool.and_eq_true] at heff
  obtain ⟨⟨⟨⟨⟨h1, h2⟩, h3⟩, h4⟩, h5⟩, h6⟩ := heff
  unfold okAll specCriteria okDate okRange okHaz
  rw [okDist_eq_spec f ca h1 h2, okVel_eq_spec f ca h3 h4,
      okDia_eq_spec f n h5 h6]
  simp [Bool.and_assoc]

/-- A request in which every one of the ten criterion values is `None` is the
all-unset request. -/
theorem filters_eq_unset_of_noneCount {f : Filters} (h : noneCount f = 10) :
    f = Filters.unset := by
  unfold noneCount at h
  have b1 : (if f.date.isNone then 1 else 0) ≤ 1 := by split <;> omega
  have b2 : (if f.start_date.isNone then 1 else 0) ≤ 1 := by split <;> omega
  have b3 : (if f.end_date.isNone then 1 else 0) ≤ 1 := by split <;> omega
  have b4 : (if f.distance_min.isNone then 1 else 0) ≤ 1 := by split <;> omega
  have b5 : (if f.distance_max.isNone then 1 else 0) ≤ 1 := by split <;> omega
  have b6 : (if f.velocity_min.isNone then 1 else 0) ≤ 1 := by split <;> omega
  have b7 : (if f.velocity_max.isNone then 1 else 0) ≤ 1 := by split <;> omega
  have b8 : (if f.diameter_min.isNone then 1 else 0) ≤ 1 := by split <;> omega
  have b9 : (if f.diameter_max.isNone then 1 else 0) ≤ 1 := by split <;> omega
  have b10 : (if f.hazardous.isNone then 1 else 0) ≤ 1 := by split <;> omega
  have e1 : (if f.date.isNone then 1 else 0) = 1 := by omega
  have e2 : (if f.start_date.isNone then 1 else 0) = 1 := by omega
  have e3 : (if f.end_date.isNone then 1 else 0) = 1 := by omega
  have e4 : (if f.distance_min.isNone then 1 else 0) = 1 := by omega
  have e5 : (if f.distance_max.isNone then 1 else 0) = 1 := by omega
  have e6 : (if f.velocity_min.isNone then 1 else 0) = 1 := by omega
  have e7 : (if f.velocity_max.isNone then 1 else 0) = 1 := by omega
  have e8 : (if f.diameter_min.isNone then 1 else 0) = 1 := by omega
  have e9 : (if f.diameter_max.isNone then 1 else 0) = 1 := by omega
  have e10 : (if f.hazardous.isNone then 1 else 0) = 1 := by omega
  have t : ∀ {c : Prop} {inst : Decidable c}, (if c then 1 else 0) = 1 → c := by
    intro c inst hc
    by_cases h' : c
    · exact h'
    · simp [h'] at hc
  have d1 := t e1
  have d2 := t e2
  have d3 := t e3
  have d4 := t e4
  have d5 := t e5
  have d6 := t e6
  have d7 := t e7
  have d8 := t e8
  have d9 := t e9
  have d10 := t e10
  cases f
  simp_all [Filters.unset, Option.isNone_iff_eq_none]

/-- An option whose `isSome` is `false` is `none`. -/
theorem eq_none_of_isSome_false {α : Type} {o : Option α}
    (h : o.isSome = false) : o = none := by
  cases o with
  | none => rfl
  | some a => simp at h

/-- For an effective request with at least one set criterion, some block of
the loop is active. -/
theorem actAny_of_effective {f : Filters} (heff : effectiveFilters f = true)
    (h : noneCount f ≠ 10) : actAny f = true := by
  by_contra hA'
  simp only [Bool.not_eq_true] at hA'
  apply h
  · have hA := hA'
    unfold effectiveFilters at heff
    simp only [Bool.and_eq_true] at heff
    obtain ⟨⟨⟨⟨⟨g1, g2⟩, g3⟩, g4⟩, g5⟩, g6⟩ := heff
    unfold actAny at hA
    simp only [Bool.or_eq_false_iff] at hA
    obtain ⟨⟨⟨⟨⟨w1, w2⟩, w3⟩, w4⟩, w5⟩, w6⟩ := hA
    unfold actDate at w1
    unfold actRange at w2
    unfold actDist at w3
    unfold actVel at w4
    unfold actDia at w5
    unfold actHaz at w6
    simp only [Bool.or_eq_false_iff] at w2 w3 w4 w5
    have n1 : f.date = none := eq_none_of_isSome_false w1
    have n2 : f.start_date = none := eq_none_of_isSome_false w2.1
    have n3 : f.end_date = none := eq_none_of_isSome_false w2.2
    have n4 : f.distance_min = none := eq_none_of_truthyBound_false g1 w3.1
    have n5 : f.distance_max = none := eq_none_of_truthyBound_false g2 w3.2
    have n6 : f.velocity_min = none := eq_none_of_truthyBound_false g3 w4.1
    have n7 : f.velocity_max = none := eq_none_of_truthyBound_false g4 w4.2
    have n8 : f.diameter_min = none := eq_none_of_truthyBound_false g5 w5.1
    have n9 : f.diameter_max = none := eq_none_of_truthyBound_false g6 w5.2
    have n10 : f.hazardous = none := eq_none_of_isSome_false w6
    simp [noneCount, n1, n2, n3, n4, n5, n6, n7, n8, n9, n10]

/-- Resolving a valid object reference reduces the loop-body predicate of
`NEODatabase.query` to `queryMatch`. -/
theorem queryPred_eq {neos : List NearEarthObject} {ca : CloseApproach}
    {n : NearEarthObject} (hn : neos.get? ca.neo = some n) (f : Filters) :
    queryPred neos f ca = queryMatch f n ca := by
  unfold queryPred
  rw [hn]

/-- A dangling object reference makes the loop-body predicate reject. -/
theorem queryPred_none {neos : List NearEarthObject} {ca : CloseApproach}
    (hn : neos.get? ca.neo = none) (f : Filters) :
    queryPred neos f ca = false := by
  unfold queryPred
  rw [hn]

/-- Resolving a valid object reference reduces `specMatches` to
`specCriteria`. -/
theorem specMatches_some {f : Filters} {neos : List NearEarthObject}
    {ca : CloseApproach} {n : NearEarthObject}
    (hn : neos.get? ca.neo = some n) :
    specMatches f neos ca = specCriteria f n ca := by
  unfold specMatches
  rw [hn]

/-- For an effective request and a well-linked approach collection, the query
is exactly the spec-side filter: every stored approach satisfying all set
criteria, in stored order. -/
theorem query_eq_filter_spec (db : NEODatabase) (f : Filters)
    (heff : effectiveFilters f = true)
    (hvalid : ∀ ca ∈ db._approaches, ca.neo < db._neos.length) :
    db.query f = db._approaches.filter (specMatches f db._neos) := by
  unfold NEODatabase.query
  by_cases h10 : noneCount f = 10
  · rw [if_neg (not_not_intro h10)]
    have hu := filters_eq_unset_of_noneCount h10
    subst hu
    symm
    rw [List.filter_eq_self]
    intro ca hca
    have hlt := hvalid ca hca
    obtain ⟨n, hn⟩ : ∃ n, db._neos.get? ca.neo = some n :=
      ⟨_, List.get?_eq_get hlt⟩
    rw [specMatches_some hn]
    simp [specCriteria, Filters.unset]
  · rw [if_pos h10]
    apply List.filter_congr
    intro ca hca
    have hlt := hvalid ca hca
    obtain ⟨n, hn⟩ : ∃ n, db._neos.get? ca.neo = some n :=
      ⟨_, List.get?_eq_get hlt⟩
    rw [queryPred_eq hn f, specMatches_some hn, queryMatch_eq,
        okAll_eq_spec _ _ _ heff, actAny_of_effective heff h10, Bool.and_true]


/-- A designation borne by no listed object is absent from the designation
index. -/
theorem dictGet_desigIndexFrom_none (neos : List NearEarthObject) (i : Nat)
    (d : String) (h : ∀ n ∈ neos, n.designation ≠ d) :
    dictGet (desigIndexFrom i neos) d = none := by
  induction neos generalizing i with
  | nil => rfl
  | cons m rest ih =>
    simp only [desigIndexFrom, dictGet]
    rw [ih (i + 1) (fun n hn => h n (List.mem_cons_of_mem m hn))]
    simp [h m (List.mem_cons_self m rest)]

/-- Looking a designation up in the designation index finds the last listed
object bearing it (dictionary insertion overwrites): if no later object
shares object `j`'s designation, the lookup returns `j`'s index. -/
theorem dictGet_desigIndexFrom_last (neos : List NearEarthObject) (i j : Nat)
    (n : NearEarthObject) (hj : neos.get? j = some n)
    (hlast : ∀ n' ∈ neos.drop (j + 1), n'.designation ≠ n.designation) :
    dictGet (desigIndexFrom i neos) n.designation = some (i + j) := by
  induction neos generalizing i j with
  | nil => simp at hj
  | cons m rest ih =>
    cases j with
    | zero =>
      simp only [List.get?_cons_zero, Option.some.injEq] at hj
      subst hj
      simp only [desigIndexFrom, dictGet]
      rw [dictGet_desigIndexFrom_none rest (i + 1) m.designation
        (fun x hx => hlast x (by simpa using hx))]
      simp
    | succ j' =>
      simp only [List.get?_cons_succ] at hj
      simp only [desigIndexFrom, dictGet]
      rw [ih (i + 1) j' hj (fun x hx => hlast x (by simpa using hx))]
      exact congrArg some (by omega)

/-- Every value stored in the designation index is the position of a listed
object. -/
theorem dictGet_desigIndexFrom_lt (neos : List NearEarthObject) (i : Nat)
    (d : String) (v : Nat)
    (h : dictGet (desigIndexFrom i neos) d = some v) :
    ∃ j, j < neos.length ∧ v = i + j := by
  induction neos generalizing i with
  | nil => simp [desigIndexFrom, dictGet] at h
  | cons m rest ih =>
    simp only [desigIndexFrom, dictGet] at h
    cases hr : dictGet (desigIndexFrom (i + 1) rest) d with
    | some v' =>
      rw [hr] at h
      simp only [Option.some.injEq] at h
      subst h
      obtain ⟨j, hjl, hv⟩ := ih (i + 1) hr
      exact ⟨j + 1, by simpa using Nat.succ_lt_succ hjl, by omega⟩
    | none =>
      rw [hr] at h
      by_cases hm : m.designation = d
      · simp only [if_pos hm, Option.some.injEq] at h
        exact ⟨0, by simp, by omega⟩
      · simp [if_neg hm] at h

/-- A name borne by no listed object is absent from the name index. -/
theorem dictGet_nameIndexFrom_none (neos : List NearEarthObject) (i : Nat)
    (s : String) (h : ∀ n ∈ neos, n.name ≠ some s) :
    dictGet (nameIndexFrom i neos) s = none := by
  induction neos generalizing i with
  | nil => rfl
  | cons m rest ih =>
    simp only [nameIndexFrom]
    by_cases hm : truthyName m.name
    · rw [if_pos hm]
      simp only [dictGet]
      rw [ih (i + 1) (fun n hn => h n (List.mem_cons_of_mem m hn))]
      have hkey : m.name.getD "" ≠ s := by
        cases hname : m.name with
        | none => simp [truthyName, hname] at hm
        | some t =>
          have := h m (List.mem_cons_self m rest)
          rw [hname] at this
          simpa using fun he => this (by rw [he])
      simp [hkey]
    · rw [if_neg hm]
      exact ih (i + 1) (fun n hn => h n (List.mem_cons_of_mem m hn))

/-- Looking a non-empty name up in the name index finds the last listed
object bearing it. -/
theorem dictGet_nameIndexFrom_last (neos : List NearEarthObject) (i j : Nat)
    (n : NearEarthObject) (s : String) (hj : neos.get? j = some n)
    (hname : n.name = some s) (hs : s ≠ "")
    (hlast : ∀ n' ∈ neos.drop (j + 1), n'.name ≠ some s) :
    dictGet (nameIndexFrom i neos) s = some (i + j) := by
  induction neos generalizing i j with
  | nil => simp at hj
  | cons m rest ih =>
    cases j with
    | zero =>
      simp only [List.get?_cons_zero, Option.some.injEq] at hj
      subst hj
      have hm : truthyName m.name = true := by simp [truthyName, hname, hs]
      simp only [nameIndexFrom, if_pos hm, dictGet]
      rw [dictGet_nameIndexFrom_none rest (i + 1) s
        (fun x hx => hlast x (by simpa using hx))]
      simp [hname]
    | succ j' =>
      simp only [List.get?_cons_succ] at hj
      have hrest := ih (i + 1) j' hj (fun x hx => hlast x (by simpa using hx))
      simp only [nameIndexFrom]
      by_cases hm : truthyName m.name
      · rw [if_pos hm]
        simp only [dictGet]
        rw [hrest]
        exact congrArg some (by omega)
      · rw [if_neg hm, hrest]
        exact congrArg some (by omega)

/-- Every binding of the name index points at a listed object whose name is
the key, a non-empty string. -/
theorem dictGet_nameIndexFrom_sound (neos : List NearEarthObject) (i : Nat)
    (s : String) (v : Nat) (h : dictGet (nameIndexFrom i neos) s = some v) :
    ∃ j n, v = i + j ∧ neos.get? j = some n ∧ n.name = some s ∧ s ≠ "" := by
  induction neos generalizing i with
  | nil => simp [nameIndexFrom, dictGet] at h
  | cons m rest ih =>
    by_cases hm : truthyName m.name
    · simp only [nameIndexFrom, if_pos hm, dictGet] at h
      cases hr : dictGet (nameIndexFrom (i + 1) rest) s with
      | some v' =>
        rw [hr] at h
        simp only [Option.some.injEq] at h
        subst h
        obtain ⟨j, n, hv, hg, hn, hs⟩ := ih (i + 1) hr
        exact ⟨j + 1, n, by omega, by simpa using hg, hn, hs⟩
      | none =>
        rw [hr] at h
        by_cases hk : m.name.getD "" = s
        · simp only [if_pos hk, Option.some.injEq] at h
          subst h
          cases hname : m.name with
          | none => simp [truthyName, hname] at hm
          | some t =>
            rw [hname] at hk
            simp only [Option.getD_some] at hk
            subst hk
            refine ⟨0, m, by omega, by simp, hname, ?_⟩
            simpa [truthyName, hname] using hm
        · simp [if_neg hk] at h
    · simp only [nameIndexFrom, if_neg hm] at h
      obtain ⟨j, n, hv, hg, hn, hs⟩ := ih (i + 1) h
      exact ⟨j + 1, n, by omega, by simpa using hg, hn, hs⟩

/-- `listModify` preserves length. -/
theorem listModify_length (l : List α) (i : Nat) (f : α → α) :
    (listModify l i f).length = l.length := by
  unfold listModify
  cases h : l.get? i with
  | none => rfl
  | some a => simp [List.length_set]

/-- `listModify` rewrites the modified position. -/
theorem listModify_get_self (l : List α) (i : Nat) (f : α → α) (a : α)
    (h : l.get? i = some a) : (listModify l i f).get? i = some (f a) := by
  unfold listModify
  rw [h]
  have hlt : i < l.length := by
    cases hl : decide (i < l.length) with
    | true => exact of_decide_eq_true hl
    | false =>
      have := of_decide_eq_false hl
      rw [List.get?_eq_none.mpr (by omega)] at h
      exact Option.noConfusion h
  exact List.get?_set_eq_of_lt (f a) hlt

/-- `listModify` leaves every other position alone. -/
theorem listModify_get_ne (l : List α) (i k : Nat) (f : α → α) (h : i ≠ k) :
    (listModify l i f).get? k = l.get? k := by
  unfold listModify
  cases hg : l.get? i with
  | none => rfl
  | some a => exact List.get?_set_ne (f a) l h

/-- The event lists produced by the linking loop: the positions `j, j+1, …`
of those approaches of `l` whose designation resolves to object `k`, in input
order. -/
def eventsFor (dIdx : List (String × Nat)) (j : Nat) (l : List CloseApproach)
    (k : Nat) : List Nat :=
  match l with
  | [] => []
  | ca :: rest =>
    if dictGet dIdx ca._designation = some k then
      j :: eventsFor dIdx (j + 1) rest k
    else
      eventsFor dIdx (j + 1) rest k

/-- Every position listed by `eventsFor … j` is at least `j`. -/
theorem mem_eventsFor_ge {dIdx : List (String × Nat)} {j : Nat}
    {l : List CloseApproach} {k m : Nat}
    (h : m ∈ eventsFor dIdx j l k) : j ≤ m := by
  induction l generalizing j with
  | nil => simp [eventsFor] at h
  | cons ca rest ih =>
    simp only [eventsFor] at h
    by_cases hc : dictGet dIdx ca._designation = some k
    · rw [if_pos hc] at h
      rcases List.mem_cons.mp h with h1 | h2
      · omega
      · have := ih h2
        omega
    · rw [if_neg hc] at h
      have := ih h
      omega

/-- The positions listed by `eventsFor` are strictly increasing: events stay
in input order inside each object's list. -/
theorem eventsFor_sorted (dIdx : List (String × Nat)) (j : Nat)
    (l : List CloseApproach) (k : Nat) :
    List.Sorted (· < ·) (eventsFor dIdx j l k) := by
  induction l generalizing j with
  | nil => simp [eventsFor]
  | cons ca rest ih =>
    simp only [eventsFor]
    split
    · rw [List.sorted_cons]
      exact ⟨fun b hb => lt_of_lt_of_le (by omega) (mem_eventsFor_ge hb),
             ih (j + 1)⟩
    · exact ih (j + 1)

/-- The position of an approach whose designation resolves to object `k`
occurs exactly once in `k`'s event list. -/
theorem count_eventsFor (dIdx : List (String × Nat)) (j d k : Nat)
    (l : List CloseApproach) (ca : CloseApproach) (hd : l.get? d = some ca)
    (hca : dictGet dIdx ca._designation = some k) :
    (eventsFor dIdx j l k).count (j + d) = 1 := by
  induction l generalizing j d with
  | nil => simp at hd
  | cons ca' rest ih =>
    cases d with
    | zero =>
      simp only [List.get?_cons_zero, Option.some.injEq] at hd
      subst hd
      simp only [eventsFor, if_pos hca]
      have h0 : (eventsFor dIdx (j + 1) rest k).count j = 0 := by
        rw [List.count_eq_zero]
        intro hmem
        have := mem_eventsFor_ge hmem
        omega
      simp [List.count_cons, h0]
    | succ d' =>
      simp only [List.get?_cons_succ] at hd
      have harith : j + (d' + 1) = (j + 1) + d' := by omega
      simp only [eventsFor]
      split
      · rw [List.count_cons, harith, ih (j + 1) d' hd]
        have hne1 : (j + 1) + d' ≠ j := by omega
        have hne2 : ¬ j = (j + 1) + d' := by omega
        simp [hne1, hne2]
      · rw [harith]
        exact ih (j + 1) d' hd

/-- Characterisation of a successful linking loop: it succeeds when every
approach's designation resolves to a stored object, and then each object's
`approaches` list gains exactly the positions of its own approaches, in input
order; no other field of any object changes. -/
theorem attachFrom_ok (dIdx : List (String × Nat)) (j : Nat)
    (neos : List NearEarthObject) (l : List CloseApproach)
    (h : ∀ ca ∈ l, ∃ i, dictGet dIdx ca._designation = some i ∧
      i < neos.length) :
    ∃ neos', attachApproachesFrom dIdx j neos l = Except.ok neos' ∧
      neos'.length = neos.length ∧
      ∀ k n, neos.get? k = some n →
        neos'.get? k =
          some { n with approaches := n.approaches ++ eventsFor dIdx j l k } := by
  induction l generalizing j neos with
  | nil =>
    refine ⟨neos, rfl, rfl, ?_⟩
    intro k n hk
    simpa [eventsFor] using hk
  | cons ca rest ih =>
    obtain ⟨i, hi, hilt⟩ := h ca (List.mem_cons_self ca rest)
    obtain ⟨a, ha⟩ : ∃ a, neos.get? i = some a :=
      ⟨_, List.get?_eq_get hilt⟩
    have h' : ∀ ca' ∈ rest, ∃ i', dictGet dIdx ca'._designation = some i' ∧
        i' < (listModify neos i
          (fun n => { n with approaches := n.approaches ++ [j] })).length := by
      intro ca' hca'
      obtain ⟨i', hi', hilt'⟩ := h ca' (List.mem_cons_of_mem ca hca')
      exact ⟨i', hi', by rwa [listModify_length]⟩
    obtain ⟨neos', hok, hlen, hget⟩ := ih (j + 1)
      (listModify neos i (fun n => { n with approaches := n.approaches ++ [j] }))
      h'
    refine ⟨neos', ?_, by rw [hlen, listModify_length], ?_⟩
    · simp only [attachApproachesFrom, hi]
      exact hok
    · intro k n hk
      by_cases hki : k = i
      · rw [hki] at hk
        have hmod : (listModify neos i
            (fun m => { m with approaches := m.approaches ++ [j] })).get? i =
            some { n with approaches := n.approaches ++ [j] } :=
          listModify_get_self neos i _ n hk
        have hstep := hget i { n with approaches := n.approaches ++ [j] } hmod
        rw [hki, hstep]
        simp [eventsFor, hi, List.append_assoc]
      · have hstep := hget k n
          (by rw [listModify_get_ne neos i k _ (Ne.symm hki)]; exact hk)
        rw [hstep]
        have hne : ¬ dictGet dIdx ca._designation = some k := by
          rw [hi]
          simp only [Option.some.injEq]
          exact fun he => hki he.symm
        simp [eventsFor, hne]

/-- If some approach's designation is absent from the index, the linking loop
raises (`KeyError`) instead of skipping it. -/
theorem attachFrom_error (dIdx : List (String × Nat)) (j : Nat)
    (neos : List NearEarthObject) (l : List CloseApproach)
    (ca : CloseApproach) (hmem : ca ∈ l)
    (hca : dictGet dIdx ca._designation = none) :
    ∃ e, attachApproachesFrom dIdx j neos l = Except.error e := by
  induction l generalizing j neos with
  | nil => simp at hmem
  | cons ca' rest ih =>
    rcases List.mem_cons.mp hmem with h1 | h2
    · subst h1
      exact ⟨"KeyError", by simp only [attachApproachesFrom, hca]⟩
    · cases hd : dictGet dIdx ca'._designation with
      | none => exact ⟨"KeyError", by simp only [attachApproachesFrom, hd]⟩
      | some i =>
        obtain ⟨e, he⟩ := ih (j + 1)
          (listModify neos i
            (fun n => { n with approaches := n.approaches ++ [j] })) h2
        exact ⟨e, by simp only [attachApproachesFrom, hd]; exact he⟩

/-- Unfolding a successful construction: the two dictionaries are the two
index passes, the stored approach collection is the input collection, and the
stored heap is the result of the linking loop. -/
theorem init_ok_elim {neos : List NearEarthObject}
    {apps : List CloseApproach} {db : NEODatabase}
    (h : NEODatabase.init neos apps = Except.ok db) :
    db.neo_with_designation = desigIndexFrom 0 neos ∧
    db.neo_with_name = nameIndexFrom 0 neos ∧
    db._approaches = apps ∧
    attachApproachesFrom (desigIndexFrom 0 neos) 0 neos apps =
      Except.ok db._neos := by
  unfold NEODatabase.init at h
  cases hA : attachApproachesFrom (desigIndexFrom 0 neos) 0 neos apps with
  | error e =>
    rw [hA] at h
    exact Except.noConfusion h
  | ok neos' =>
    rw [hA] at h
    injection h with h'
    subst h'
    exact ⟨rfl, rfl, rfl, rfl⟩

/-- One fold of the state-threaded loop from any starting state: the database
component is handed through unchanged and the yielded approaches accumulate
as the filter of the pure predicate. -/
theorem querySStep_foldl (f : Filters) (db : NEODatabase)
    (l : List CloseApproach) :
    ∀ acc : List CloseApproach,
      l.foldl (querySStep f) (db, acc) =
        (db, acc ++ l.filter (queryPred db._neos f)) := by
  induction l with
  | nil => intro acc; simp
  | cons ca rest ih =>
    intro acc
    simp only [List.foldl_cons, List.filter_cons]
    cases hq : queryPred db._neos f ca with
    | true =>
      have hq' := hq
      unfold queryPred at hq'
      have hstep : querySStep f (db, acc) ca = (db, acc ++ [ca]) := by
        unfold querySStep
        dsimp only
        cases hn : db._neos.get? ca.neo with
        | some n =>
          rw [hn] at hq'
          simp only at hq'
          simp [hq']
        | none =>
          rw [hn] at hq'
          simp at hq'
      rw [hstep, ih (acc ++ [ca])]
      simp [hq]
    | false =>
      have hq' := hq
      unfold queryPred at hq'
      have hstep : querySStep f (db, acc) ca = (db, acc) := by
        unfold querySStep
        dsimp only
        cases hn : db._neos.get? ca.neo with
        | some n =>
          rw [hn] at hq'
          simp only at hq'
          simp [hq']
        | none => rfl
      rw [hstep, ih acc]
      simp [hq]

/-- Consuming the state-threaded query leaves the database untouched and
yields the same sequence the pure query does. -/
theorem queryS_spec (db : NEODatabase) (f : Filters) :
    db.queryS f = (db, db.query f) := by
  unfold NEODatabase.queryS NEODatabase.query
  by_cases h10 : noneCount f ≠ 10
  · rw [if_pos h10, if_pos h10, querySStep_foldl f db db._approaches []]
    simp
  · rw [if_neg h10, if_neg h10]

/-- A writer iteration for an approach referencing another object leaves
position `i` of the heap untouched. -/
theorem writeJsonStep_fst_ne (st : List NearEarthObject × List CAJson)
    (ca : CloseApproach) (i : Nat) (h : ca.neo ≠ i) :
    (writeJsonStep st ca).1.get? i = st.1.get? i := by
  unfold writeJsonStep
  cases hn : st.1.get? ca.neo with
  | none => rfl
  | some n =>
    dsimp only
    by_cases ht : truthyName n.name
    · rw [if_pos ht]
    · rw [if_neg ht]
      exact listModify_get_ne st.1 ca.neo i _ h

/-- Once an object's name is the empty string, the rest of the writer loop
keeps it the empty string (a later iteration can only reassign `''`). -/
theorem writeJson_name_persists (results : List CloseApproach) :
    ∀ (neos : List NearEarthObject) (acc : List CAJson) (i : Nat)
      (m : NearEarthObject),
      neos.get? i = some m → m.name = some "" →
      ∃ m', (results.foldl writeJsonStep (neos, acc)).1.get? i = some m' ∧
        m'.name = some "" := by
  induction results with
  | nil =>
    intro neos acc i m hm hname
    exact ⟨m, hm, hname⟩
  | cons ca rest ih =>
    intro neos acc i m hm hname
    simp only [List.foldl_cons]
    rcases hst : writeJsonStep (neos, acc) ca with ⟨neos2, acc2⟩
    by_cases hi : ca.neo = i
    · subst hi
      cases hn : neos.get? ca.neo with
      | none => exact absurd (hn ▸ hm) (by simp)
      | some n =>
        have hnm : n = m := by
          rw [hn] at hm
          exact Option.some.inj hm
        subst hnm
        have ht : truthyName n.name = false := by simp [truthyName, hname]
        have hstep : writeJsonStep (neos, acc) ca =
            (listModify neos ca.neo (fun x => { x with name := some "" }),
             acc ++ [entryOf ca { n with name := some "" }]) := by
          unfold writeJsonStep
          dsimp only
          rw [hn]
          simp [ht]
        rw [hstep] at hst
        injection hst with h1 h2
        subst h1
        exact ih _ _ ca.neo { n with name := some "" }
          (listModify_get_self neos ca.neo _ n hn) rfl
    · have hpres : neos2.get? i = some m := by
        have := writeJsonStep_fst_ne (neos, acc) ca i hi
        rw [hst] at this
        dsimp at this
        rw [this]
        exact hm
      exact ih neos2 acc2 i m hpres hname

/-- If some result references object `i` and that object's name is falsy
(`None` or `''`), the writer loop ends with the name set to `''`. -/
theorem writeJson_name_set (results : List CloseApproach) :
    ∀ (neos : List NearEarthObject) (acc : List CAJson) (i : Nat)
      (m : NearEarthObject),
      neos.get? i = some m → (m.name = none ∨ m.name = some "") →
      (∃ ca ∈ results, ca.neo = i) →
      ∃ m', (results.foldl writeJsonStep (neos, acc)).1.get? i = some m' ∧
        m'.name = some "" := by
  induction results with
  | nil =>
    intro neos acc i m hm hname hex
    obtain ⟨ca, hmem, _⟩ := hex
    simp at hmem
  | cons ca' rest ih =>
    intro neos acc i m hm hname hex
    simp only [List.foldl_cons]
    by_cases hi : ca'.neo = i
    · have hn : neos.get? ca'.neo = some m := by rw [hi]; exact hm
      have ht : truthyName m.name = false := by
        rcases hname with h | h <;> simp [truthyName, h]
      have hstep : writeJsonStep (neos, acc) ca' =
          (listModify neos ca'.neo (fun x => { x with name := some "" }),
           acc ++ [entryOf ca' { m with name := some "" }]) := by
        unfold writeJsonStep
        dsimp only
        rw [hn]
        simp [ht]
      rw [hstep]
      have hm' : (listModify neos ca'.neo
          (fun x => { x with name := some "" })).get? i =
          some { m with name := some "" } := by
        rw [← hi]
        exact listModify_get_self neos ca'.neo _ m hn
      exact writeJson_name_persists rest _ _ i _ hm' rfl
    · rcases hst : writeJsonStep (neos, acc) ca' with ⟨neos2, acc2⟩
      have hpres : neos2.get? i = some m := by
        have := writeJsonStep_fst_ne (neos, acc) ca' i hi
        rw [hst] at this
        dsimp at this
        rw [this]
        exact hm
      have hex' : ∃ ca ∈ rest, ca.neo = i := by
        obtain ⟨ca, hmem, hcai⟩ := hex
        rcases List.mem_cons.mp hmem with h1 | h2
        · subst h1
          exact absurd hcai hi
        · exact ⟨ca, h2, hcai⟩
      exact ih neos2 acc2 i m hpres hname hex'

/-!
Concrete instances used by the counterexamples and witnesses below.
-/

/-- A single object: Eros, diameter known, not hazardous, linked to event 0. -/
def neoC1 : NearEarthObject :=
  { designation := "433", name := some "Eros", diameter := some 16,
    hazardous := false, approaches := [0] }

/-- One approach of Eros at distance 5 au. -/
def caC1 : CloseApproach :=
  { neo := 0, _designation := "433", time := { date := 10, minuteOfDay := 30 },
    distance := 5, velocity := 3 }

/-- The database linking them (the result of constructing from the unlinked
object and `caC1`). -/
def dbC1 : NEODatabase :=
  { _neos := [neoC1], _approaches := [caC1],
    neo_with_designation := [("433", 0)], neo_with_name := [("Eros", 0)] }

/-- `dbC1` really is a constructed database. -/
theorem dbC1_init :
    NEODatabase.init
      [{ designation := "433", name := some "Eros", diameter := some 16,
         hazardous := false, approaches := [] }] [caC1] =
      Except.ok dbC1 := by
  rfl

/-- The request whose only set criterion is `distance_min = 0.0`. -/
def fZero : Filters :=
  { date := none, start_date := none, end_date := none,
    distance_min := some 0, distance_max := none,
    velocity_min := none, velocity_max := none,
    diameter_min := none, diameter_max := none, hazardous := none }

/-- C1, counterexample: with `distance_min = 0.0` as the only set criterion,
the stored approach satisfies every set criterion (`0 ≤ 5`), so the claim
predicts it is yielded — but the query yields nothing: the zero bound is
falsy, no filter arm runs, and the `apply_filters` flag never becomes true. -/
theorem query_zero_bound_refutes_set_criterion :
    dbC1.query fZero = [] ∧
    dbC1._approaches.filter (specMatches fZero dbC1._neos) = [caC1] := by
  constructor
  · rfl
  · rfl

/-- C1, amended: for every request in which each set numeric bound is nonzero
(so the source's truthiness tests agree with is-set tests) and every database
whose approaches reference stored objects, the query yields exactly the
stored approaches that satisfy every set criterion — logical AND across the
set criteria, unset criteria vacuously satisfied, a bound of `0.0` being
treated as unset — in the stored order. -/
theorem query_yields_exactly_matching_of_nonzero_bounds
    (db : NEODatabase) (f : Filters)
    (heff : effectiveFilters f = true)
    (hvalid : ∀ ca ∈ db._approaches, ca.neo < db._neos.length) :
    db.query f = db._approaches.filter (specMatches f db._neos) :=
  query_eq_filter_spec db f heff hvalid

/-- The request `distance_min = 1, hazardous = false`, both effective. -/
def fW1 : Filters :=
  { date := none, start_date := none, end_date := none,
    distance_min := some 1, distance_max := none,
    velocity_min := none, velocity_max := none,
    diameter_min := none, diameter_max := none, hazardous := some false }

/-- Witness for the amended C1 at a concrete database and request. -/
theorem query_yields_exactly_matching_witness :
    effectiveFilters fW1 = true ∧
    (∀ ca ∈ dbC1._approaches, ca.neo < dbC1._neos.length) ∧
    dbC1.query fW1 = dbC1._approaches.filter (specMatches fW1 dbC1._neos) :=
  ⟨by decide, by decide,
   query_yields_exactly_matching_of_nonzero_bounds dbC1 fW1 (by decide)
     (by decide)⟩

/-- An object with an unknown diameter (the not-a-number sentinel), marked
hazardous, linked to event 0. -/
def neoC2 : NearEarthObject :=
  { designation := "X1", name := none, diameter := none,
    hazardous := true, approaches := [0] }

/-- One approach of that object. -/
def caC2 : CloseApproach :=
  { neo := 0, _designation := "X1", time := { date := 20, minuteOfDay := 0 },
    distance := 1, velocity := 2 }

/-- The database linking them. -/
def dbC2 : NEODatabase :=
  { _neos := [neoC2], _approaches := [caC2],
    neo_with_designation := [("X1", 0)], neo_with_name := [] }

/-- The request `diameter_min = 0.0, hazardous = true`. -/
def fC2 : Filters :=
  { date := none, start_date := none, end_date := none,
    distance_min := none, distance_max := none,
    velocity_min := none, velocity_max := none,
    diameter_min := some 0, diameter_max := none, hazardous := some true }

/-- C2, failing run: the request sets the diameter bound `diameter_min =
0.0`, the linked object's diameter is the not-a-number sentinel, and yet the
event is yielded — the zero bound is falsy, so the diameter block (and its
`isnan` rejection) is skipped entirely, contradicting the specified
behaviour that an unknown diameter never match when a diameter bound is set,
even a trivially satisfiable one. -/
theorem query_zero_diameter_bound_yields_nan_event :
    fC2.diameter_min = some 0 ∧
    neoC2.diameter = none ∧
    dbC2._neos.get? caC2.neo = some neoC2 ∧
    dbC2.query fC2 = [caC2] := by
  refine ⟨rfl, rfl, rfl, ?_⟩
  rfl

/-- C3: with every one of the ten criteria unset, the query takes the
unfiltered branch and yields every stored approach in stored order, with the
full count. -/
theorem query_all_unset_yields_all (db : NEODatabase) :
    db.query Filters.unset = db._approaches ∧
    (db.query Filters.unset).length = db._approaches.length := by
  have h : db.query Filters.unset = db._approaches := by
    unfold NEODatabase.query
    rw [if_neg (by decide)]
  exact ⟨h, by rw [h]⟩

/-- C4: if some approach's designation string matches no stored object's
designation, construction raises (`KeyError` from the index lookup) and the
database is not built — the offending approach is not skipped. -/
theorem init_error_of_unmatched_designation
    (neos : List NearEarthObject) (apps : List CloseApproach)
    (h : ∃ ca ∈ apps, ∀ n ∈ neos, n.designation ≠ ca._designation) :
    ∃ e, NEODatabase.init neos apps = Except.error e := by
  obtain ⟨ca, hmem, hno⟩ := h
  have hnone : dictGet (desigIndexFrom 0 neos) ca._designation = none :=
    dictGet_desigIndexFrom_none neos 0 _ hno
  obtain ⟨e, he⟩ :=
    attachFrom_error (desigIndexFrom 0 neos) 0 neos apps ca hmem hnone
  refine ⟨e, ?_⟩
  unfold NEODatabase.init
  rw [he]

/-- An approach whose designation matches no object at all. -/
def caW4 : CloseApproach :=
  { neo := 0, _designation := "2020 AB",
    time := { date := 3, minuteOfDay := 0 }, distance := 1, velocity := 1 }

/-- Witness for C4: constructing from no objects and that approach fails. -/
theorem init_error_of_unmatched_designation_witness :
    (∃ ca ∈ [caW4], ∀ n ∈ ([] : List NearEarthObject),
      n.designation ≠ ca._designation) ∧
    ∃ e, NEODatabase.init [] [caW4] = Except.error e :=
  ⟨⟨caW4, by simp⟩,
   init_error_of_unmatched_designation [] [caW4] ⟨caW4, by simp⟩⟩

/-- C5: in a constructed database, looking up the designation of a stored
object that no later object shares (in particular a unique one) returns that
object — on duplicates the last inserted wins — and looking up a designation
borne by no object returns `None` rather than raising; matching is exact
string equality, hence case-sensitive. -/
theorem get_neo_by_designation_spec
    (neos : List NearEarthObject) (apps : List CloseApproach)
    (db : NEODatabase) (hinit : NEODatabase.init neos apps = Except.ok db) :
    (∀ (j : Nat) (n : NearEarthObject), neos.get? j = some n →
        (∀ n' ∈ neos.drop (j + 1), n'.designation ≠ n.designation) →
        db.get_neo_by_designation n.designation = some j) ∧
    (∀ d : String, (∀ n ∈ neos, n.designation ≠ d) →
        db.get_neo_by_designation d = none) := by
  obtain ⟨hd, _, _, _⟩ := init_ok_elim hinit
  constructor
  · intro j n hj hlast
    unfold NEODatabase.get_neo_by_designation
    rw [hd]
    have := dictGet_desigIndexFrom_last neos 0 j n hj hlast
    simpa using this
  · intro d hno
    unfold NEODatabase.get_neo_by_designation
    rw [hd]
    exact dictGet_desigIndexFrom_none neos 0 d hno

/-- Two objects sharing the designation `433`; only the second is named. -/
def neosW5 : List NearEarthObject :=
  [{ designation := "433", name := none, diameter := none,
     hazardous := false, approaches := [] },
   { designation := "433", name := some "Eros", diameter := some 16,
     hazardous := false, approaches := [] }]

/-- The database constructed from `neosW5` and no approaches. -/
def dbW5 : NEODatabase :=
  { _neos := neosW5, _approaches := [],
    neo_with_designation := [("433", 0), ("433", 1)],
    neo_with_name := [("Eros", 1)] }

/-- Witness for C5: the duplicate designation resolves to the last insert,
and a lookup differing only in case misses (returning `None`). -/
theorem get_neo_by_designation_spec_witness :
    NEODatabase.init neosW5 [] = Except.ok dbW5 ∧
    dbW5.get_neo_by_designation "433" = some 1 ∧
    dbW5.get_neo_by_designation "433 " = none := by
  have h : NEODatabase.init neosW5 [] = Except.ok dbW5 := by rfl
  have hs := get_neo_by_designation_spec neosW5 [] dbW5 h
  exact ⟨h,
    hs.1 1
      { designation := "433", name := some "Eros", diameter := some 16,
        hazardous := false, approaches := [] } (by rfl) (by decide),
    hs.2 "433 " (by decide)⟩

/-- A successful linking loop looked every approach's designation up
successfully. -/
theorem attachFrom_ok_lookup (dIdx : List (String × Nat)) (j : Nat)
    (neos : List NearEarthObject) (l : List CloseApproach)
    (neos' : List NearEarthObject)
    (h : attachApproachesFrom dIdx j neos l = Except.ok neos') :
    ∀ ca ∈ l, ∃ i, dictGet dIdx ca._designation = some i := by
  induction l generalizing j neos with
  | nil => intro ca hca; simp at hca
  | cons ca' rest ih =>
    intro ca hca
    rcases List.mem_cons.mp hca with h1 | h2
    · subst h1
      cases hd : dictGet dIdx ca._designation with
      | none =>
        rw [show attachApproachesFrom dIdx j neos (ca :: rest) =
            Except.error "KeyError" from by
          simp only [attachApproachesFrom, hd]] at h
        exact Except.noConfusion h
      | some i => exact ⟨i, rfl⟩
    · cases hd : dictGet dIdx ca'._designation with
      | none =>
        rw [show attachApproachesFrom dIdx j neos (ca' :: rest) =
            Except.error "KeyError" from by
          simp only [attachApproachesFrom, hd]] at h
        exact Except.noConfusion h
      | some i =>
        rw [show attachApproachesFrom dIdx j neos (ca' :: rest) =
            attachApproachesFrom dIdx (j + 1)
              (listModify neos i
                (fun n => { n with approaches := n.approaches ++ [j] }))
              rest from by
          simp only [attachApproachesFrom, hd]] at h
        exact ih (j + 1) _ h ca h2

/-- Every approach of a successfully constructed database resolves, through
the designation index, to a stored object position; the construction
preserves every object's designation, name, diameter and hazardous flag. -/
theorem init_ok_heap (neos : List NearEarthObject)
    (apps : List CloseApproach) (db : NEODatabase)
    (hinit : NEODatabase.init neos apps = Except.ok db) :
    ∀ (j : Nat) (n : NearEarthObject), neos.get? j = some n →
      ∃ n', db._neos.get? j = some n' ∧
        n'.designation = n.designation ∧ n'.name = n.name ∧
        n'.diameter = n.diameter ∧ n'.hazardous = n.hazardous := by
  obtain ⟨_, _, _, hA⟩ := init_ok_elim hinit
  have hres : ∀ ca ∈ apps, ∃ i,
      dictGet (desigIndexFrom 0 neos) ca._designation = some i ∧
      i < neos.length := by
    intro ca hca
    obtain ⟨i, hi⟩ :=
      attachFrom_ok_lookup (desigIndexFrom 0 neos) 0 neos apps db._neos hA
        ca hca
    obtain ⟨j, hjl, hv⟩ := dictGet_desigIndexFrom_lt neos 0 _ i hi
    exact ⟨i, hi, by omega⟩
  obtain ⟨neos', hok, _, hget⟩ :=
    attachFrom_ok (desigIndexFrom 0 neos) 0 neos apps hres
  have hne : neos' = db._neos := by
    rw [hok] at hA
    exact Except.ok.inj hA
  intro j n hj
  have := hget j n hj
  rw [hne] at this
  exact ⟨_, this, rfl, rfl, rfl, rfl⟩

/-- C6: in a constructed database, looking up the name of a stored object
with a present, non-empty name that no later object shares returns that
object (last-write-wins on duplicate names); any successful name lookup
lands on an object whose name is present, non-empty, and equal to the
queried string; a name borne by no object returns `None` rather than
raising. -/
theorem get_neo_by_name_spec
    (neos : List NearEarthObject) (apps : List CloseApproach)
    (db : NEODatabase) (hinit : NEODatabase.init neos apps = Except.ok db) :
    (∀ (j : Nat) (n : NearEarthObject) (s : String), neos.get? j = some n →
        n.name = some s → s ≠ "" →
        (∀ n' ∈ neos.drop (j + 1), n'.name ≠ some s) →
        db.get_neo_by_name s = some j) ∧
    (∀ (s : String) (v : Nat), db.get_neo_by_name s = some v →
        ∃ n', db._neos.get? v = some n' ∧ n'.name = some s ∧ s ≠ "") ∧
    (∀ s : String, (∀ n ∈ neos, n.name ≠ some s) →
        db.get_neo_by_name s = none) := by
  obtain ⟨_, hnm, _, _⟩ := init_ok_elim hinit
  refine ⟨?_, ?_, ?_⟩
  · intro j n s hj hname hs hlast
    unfold NEODatabase.get_neo_by_name
    rw [hnm]
    have := dictGet_nameIndexFrom_last neos 0 j n s hj hname hs hlast
    simpa using this
  · intro s v hv
    unfold NEODatabase.get_neo_by_name at hv
    rw [hnm] at hv
    obtain ⟨j, n, hj0, hg, hname, hs⟩ := dictGet_nameIndexFrom_sound neos 0 s v hv
    obtain ⟨n', hn', _, hname', _, _⟩ := init_ok_heap neos apps db hinit j n hg
    refine ⟨n', ?_, by rw [hname', hname], hs⟩
    rw [show v = j from by omega]
    exact hn'
  · intro s hno
    unfold NEODatabase.get_neo_by_name
    rw [hnm]
    exact dictGet_nameIndexFrom_none neos 0 s hno

/-- Objects for the C6 witness: an unnamed one, an empty-named one, and a
named one. -/
def neosW6 : List NearEarthObject :=
  [{ designation := "A1", name := none, diameter := none,
     hazardous := false, approaches := [] },
   { designation := "B2", name := some "", diameter := none,
     hazardous := false, approaches := [] },
   { designation := "C3", name := some "Ceres", diameter := some 9,
     hazardous := false, approaches := [] }]

/-- The database constructed from `neosW6` and no approaches: only the third
object is name-indexed. -/
def dbW6 : NEODatabase :=
  { _neos := neosW6, _approaches := [],
    neo_with_designation := [("A1", 0), ("B2", 1), ("C3", 2)],
    neo_with_name := [("Ceres", 2)] }

/-- Witness for C6: the named object is found under its name, the lookup of
the empty string (the empty-named object) misses, and a case variant
misses. -/
theorem get_neo_by_name_spec_witness :
    NEODatabase.init neosW6 [] = Except.ok dbW6 ∧
    dbW6.get_neo_by_name "Ceres" = some 2 ∧
    (∃ n', dbW6._neos.get? 2 = some n' ∧ n'.name = some "Ceres" ∧
      "Ceres" ≠ "") ∧
    dbW6.get_neo_by_name "ceres" = none := by
  have h : NEODatabase.init neosW6 [] = Except.ok dbW6 := by rfl
  have hs := get_neo_by_name_spec neosW6 [] dbW6 h
  refine ⟨h, ?_, ?_, hs.2.2 "ceres" (by decide)⟩
  · exact hs.1 2
      { designation := "C3", name := some "Ceres", diameter := some 9,
        hazardous := false, approaches := [] } "Ceres" (by rfl) rfl
      (by decide) (by decide)
  · exact hs.2.1 "Ceres" 2
      (hs.1 2
        { designation := "C3", name := some "Ceres", diameter := some 9,
          hazardous := false, approaches := [] } "Ceres" (by rfl) rfl
        (by decide) (by decide))

/-- With pairwise-distinct designations, no object after position `j` shares
object `j`'s designation. -/
theorem pairwise_designation_drop (neos : List NearEarthObject)
    (hdis : neos.Pairwise (fun a b => a.designation ≠ b.designation))
    (j : Nat) (n : NearEarthObject) (hj : neos.get? j = some n) :
    ∀ n' ∈ neos.drop (j + 1), n'.designation ≠ n.designation := by
  intro n' hn'
  obtain ⟨m, hm⟩ := List.mem_iff_get?.mp hn'
  rw [List.get?_drop] at hm
  obtain ⟨hjl, hjg⟩ := List.get?_eq_some.mp hj
  obtain ⟨hml, hmg⟩ := List.get?_eq_some.mp hm
  have hltF : (⟨j, hjl⟩ : Fin neos.length) < ⟨j + 1 + m, hml⟩ :=
    Fin.mk_lt_mk.mpr (by omega)
  have hrel := List.pairwise_iff_get.mp hdis ⟨j, hjl⟩ ⟨j + 1 + m, hml⟩ hltF
  rw [hjg, hmg] at hrel
  exact fun he => hrel he.symm

/-- C7: in a database constructed from objects with distinct designations
(every object freshly built, so with an empty `approaches` list) and
approaches each referencing the stored object bearing its designation, every
event's referenced object carries the event's original designation string,
lists the event exactly once in its `approaches`, and lists its events in
input order (the event positions appear strictly increasing). -/
theorem init_links_each_event_once_in_order
    (neos : List NearEarthObject) (apps : List CloseApproach)
    (db : NEODatabase)
    (hinit : NEODatabase.init neos apps = Except.ok db)
    (hdis : neos.Pairwise (fun a b => a.designation ≠ b.designation))
    (hwf : ∀ ca ∈ apps,
      (neos.get? ca.neo).map NearEarthObject.designation =
        some ca._designation)
    (hempty : ∀ n ∈ neos, n.approaches = []) :
    ∀ (j : Nat) (ca : CloseApproach), apps.get? j = some ca →
      ∃ n', db._neos.get? ca.neo = some n' ∧
        n'.designation = ca._designation ∧
        n'.approaches.count j = 1 ∧
        List.Sorted (· < ·) n'.approaches := by
  obtain ⟨_, _, _, hA⟩ := init_ok_elim hinit
  have hwf' : ∀ ca ∈ apps, ∃ n, neos.get? ca.neo = some n ∧
      n.designation = ca._designation := by
    intro ca hca
    have hw := hwf ca hca
    cases hg : neos.get? ca.neo with
    | none => rw [hg] at hw; simp at hw
    | some n =>
      rw [hg] at hw
      simp at hw
      exact ⟨n, rfl, hw⟩
  have hlook : ∀ ca ∈ apps,
      dictGet (desigIndexFrom 0 neos) ca._designation = some ca.neo := by
    intro ca hca
    obtain ⟨n, hn, hd2⟩ := hwf' ca hca
    have hlast := pairwise_designation_drop neos hdis ca.neo n hn
    have hl := dictGet_desigIndexFrom_last neos 0 ca.neo n hn hlast
    rw [hd2] at hl
    simpa using hl
  have hres : ∀ ca ∈ apps, ∃ i,
      dictGet (desigIndexFrom 0 neos) ca._designation = some i ∧
      i < neos.length := by
    intro ca hca
    obtain ⟨n, hn, _⟩ := hwf' ca hca
    obtain ⟨hl, _⟩ := List.get?_eq_some.mp hn
    exact ⟨ca.neo, hlook ca hca, hl⟩
  obtain ⟨neos', hok, _, hget⟩ :=
    attachFrom_ok (desigIndexFrom 0 neos) 0 neos apps hres
  have hne : neos' = db._neos := by
    rw [hok] at hA
    exact Except.ok.inj hA
  intro j ca hj
  have hca : ca ∈ apps := List.get?_mem hj
  obtain ⟨n, hn, hd2⟩ := hwf' ca hca
  have hgot := hget ca.neo n hn
  rw [hne] at hgot
  have hemp := hempty n (List.get?_mem hn)
  refine ⟨_, hgot, hd2, ?_, ?_⟩
  · dsimp only
    rw [hemp, List.nil_append]
    have hc := count_eventsFor (desigIndexFrom 0 neos) 0 j ca.neo apps ca hj
      (hlook ca hca)
    simpa using hc
  · dsimp only
    rw [hemp, List.nil_append]
    exact eventsFor_sorted _ _ _ _

/-- Two freshly built objects for the C7 witness. -/
def neosW7 : List NearEarthObject :=
  [{ designation := "A", name := none, diameter := none,
     hazardous := false, approaches := [] },
   { designation := "B", name := none, diameter := none,
     hazardous := true, approaches := [] }]

/-- Three approaches: events 0 and 2 belong to object `B`, event 1 to `A`. -/
def appsW7 : List CloseApproach :=
  [{ neo := 1, _designation := "B", time := { date := 1, minuteOfDay := 0 },
     distance := 1, velocity := 1 },
   { neo := 0, _designation := "A", time := { date := 2, minuteOfDay := 0 },
     distance := 1, velocity := 1 },
   { neo := 1, _designation := "B", time := { date := 3, minuteOfDay := 0 },
     distance := 2, velocity := 2 }]

/-- The database constructed from `neosW7` and `appsW7`: `A` holds event 1,
`B` holds events 0 and 2 in input order. -/
def dbW7 : NEODatabase :=
  { _neos :=
      [{ designation := "A", name := none, diameter := none,
         hazardous := false, approaches := [1] },
       { designation := "B", name := none, diameter := none,
         hazardous := true, approaches := [0, 2] }],
    _approaches := appsW7,
    neo_with_designation := [("A", 0), ("B", 1)],
    neo_with_name := [] }

/-- Witness for C7 at event 2 of the concrete construction. -/
theorem init_links_each_event_once_in_order_witness :
    NEODatabase.init neosW7 appsW7 = Except.ok dbW7 ∧
    ∃ n', dbW7._neos.get? 1 = some n' ∧ n'.designation = "B" ∧
      n'.approaches.count 2 = 1 ∧ List.Sorted (· < ·) n'.approaches := by
  have h : NEODatabase.init neosW7 appsW7 = Except.ok dbW7 := by rfl
  refine ⟨h, ?_⟩
  exact init_links_each_event_once_in_order neosW7 appsW7 dbW7 h
    (by decide) (by decide) (by decide) 2
    { neo := 1, _designation := "B", time := { date := 3, minuteOfDay := 0 },
      distance := 2, velocity := 2 } (by rfl)

/-- An object and its single approach on day 5, for the date-filter claims. -/
def neoC8 : NearEarthObject :=
  { designation := "Y1", name := none, diameter := some 1,
    hazardous := false, approaches := [0] }

/-- The approach of `neoC8`, dated day 5. -/
def caC8 : CloseApproach :=
  { neo := 0, _designation := "Y1", time := { date := 5, minuteOfDay := 0 },
    distance := 1, velocity := 1 }

/-- The database linking them. -/
def dbC8 : NEODatabase :=
  { _neos := [neoC8], _approaches := [caC8],
    neo_with_designation := [("Y1", 0)], neo_with_name := [] }

/-- Exact date 5 together with the range 10–20. -/
def f8 : Filters :=
  { date := some 5, start_date := some 10, end_date := some 20,
    distance_min := none, distance_max := none,
    velocity_min := none, velocity_max := none,
    diameter_min := none, diameter_max := none, hazardous := none }

/-- Exact date 5 alone. -/
def f8only : Filters :=
  { date := some 5, start_date := none, end_date := none,
    distance_min := none, distance_max := none,
    velocity_min := none, velocity_max := none,
    diameter_min := none, diameter_max := none, hazardous := none }

/-- C8, counterexample: the approach matches the exact date, so under the
claimed precedence the query with both criteria would equal the query with
the exact date alone — but the range is applied as well: the combined
request yields nothing while the exact-date request yields the approach. -/
theorem query_exact_date_no_precedence :
    f8 = { f8only with start_date := some 10, end_date := some 20 } ∧
    dbC8.query f8 = [] ∧
    dbC8.query f8only = [caC8] := by
  refine ⟨rfl, ?_, ?_⟩
  · rfl
  · rfl

/-- C8, amended: when the exact date is set, setting the start/end range as
well does not get ignored — the query equals the exact-date-only query
further filtered by the range condition (the two date criteria conjoin). -/
theorem query_conjoins_date_and_range (db : NEODatabase) (f : Filters)
    (hd : f.date.isSome = true) (hs : f.start_date.isSome = true)
    (he : f.end_date.isSome = true) :
    db.query f =
      (db.query { f with start_date := none, end_date := none }).filter
        (okRange f) := by
  have h10 : noneCount f ≠ 10 := by
    intro hh
    rw [filters_eq_unset_of_noneCount hh] at hd
    simp [Filters.unset] at hd
  have h10' : noneCount { f with start_date := none, end_date := none } ≠ 10 := by
    intro hh
    have h2 := congrArg Filters.date (filters_eq_unset_of_noneCount hh)
    rw [show ({ f with start_date := none, end_date := none } : Filters).date =
      f.date from rfl] at h2
    rw [show Filters.unset.date = none from rfl] at h2
    rw [h2] at hd
    simp at hd
  unfold NEODatabase.query
  rw [if_pos h10, if_pos h10', List.filter_filter]
  apply List.filter_congr
  intro ca hca
  cases hn : db._neos.get? ca.neo with
  | none =>
    rw [queryPred_none hn, queryPred_none hn]
    simp
  | some n =>
    rw [queryPred_eq hn f,
        queryPred_eq hn { f with start_date := none, end_date := none },
        queryMatch_eq, queryMatch_eq]
    have hact : actAny f = true := by
      unfold actAny actDate
      rw [hd]
      simp
    have hact' : actAny { f with start_date := none, end_date := none } = true := by
      unfold actAny actDate
      rw [show ({ f with start_date := none, end_date := none } : Filters).date =
        f.date from rfl, hd]
      simp
    rw [hact, hact', Bool.and_true, Bool.and_true]
    unfold okAll
    rw [show okDate { f with start_date := none, end_date := none } ca =
          okDate f ca from rfl,
        show okRange { f with start_date := none, end_date := none } ca =
          true from rfl,
        show okDist { f with start_date := none, end_date := none } ca =
          okDist f ca from rfl,
        show okVel { f with start_date := none, end_date := none } ca =
          okVel f ca from rfl,
        show okDia { f with start_date := none, end_date := none } n =
          okDia f n from rfl,
        show okHaz { f with start_date := none, end_date := none } n =
          okHaz f n from rfl]
    cases okDate f ca <;> cases okRange f ca <;> cases okDist f ca <;>
      cases okVel f ca <;> cases okDia f n <;> cases okHaz f n <;> simp

/-- Witness for the amended C8 at the concrete database and request. -/
theorem query_conjoins_date_and_range_witness :
    (f8.date.isSome = true ∧ f8.start_date.isSome = true ∧
      f8.end_date.isSome = true) ∧
    dbC8.query f8 =
      (dbC8.query { f8 with start_date := none, end_date := none }).filter
        (okRange f8) :=
  ⟨⟨rfl, rfl, rfl⟩, query_conjoins_date_and_range dbC8 f8 rfl rfl rfl⟩

/-- C9: running the query — with the state explicitly threaded through every
loop iteration — returns the database unchanged (no object, approach, or
index is written) along with exactly the pure query's result sequence. -/
theorem query_leaves_database_unchanged (db : NEODatabase) (f : Filters) :
    (db.queryS f).1 = db ∧ (db.queryS f).2 = db.query f := by
  rw [queryS_spec]
  exact ⟨rfl, rfl⟩

/-- C10: `write_to_json` is not side-effect free — whenever some result's
linked object has an absent name, the writer permanently sets that object's
name to the empty string, observable on the shared heap after the call. -/
theorem write_to_json_mutates_absent_name
    (neos : List NearEarthObject) (results : List CloseApproach)
    (ca : CloseApproach) (m : NearEarthObject)
    (hmem : ca ∈ results) (hm : neos.get? ca.neo = some m)
    (hname : m.name = none) :
    ∃ m', (write_to_json neos results).1.get? ca.neo = some m' ∧
      m'.name = some "" := by
  unfold write_to_json
  exact writeJson_name_set results neos [] ca.neo m hm (Or.inl hname)
    ⟨ca, hmem, rfl⟩

/-- An object with an absent name, for the C10 witness. -/
def neoW10 : NearEarthObject :=
  { designation := "Z9", name := none, diameter := some 2,
    hazardous := false, approaches := [0] }

/-- A result referencing `neoW10`. -/
def caW10 : CloseApproach :=
  { neo := 0, _designation := "Z9", time := { date := 7, minuteOfDay := 0 },
    distance := 1, velocity := 1 }

/-- Witness for C10: after writing the one-result stream, the shared object's
name has become the empty string. -/
theorem write_to_json_mutates_absent_name_witness :
    (caW10 ∈ [caW10] ∧ [neoW10].get? caW10.neo = some neoW10 ∧
      neoW10.name = none) ∧
    ∃ m', (write_to_json [neoW10] [caW10]).1.get? caW10.neo = some m' ∧
      m'.name = some "" :=
  ⟨⟨by simp, rfl, rfl⟩,
   write_to_json_mutates_absent_name [neoW10] [caW10] caW10 neoW10
     (by simp) rfl rfl⟩
